import Mathlib

/-!
Verification of the rate-limiting / retry core of the repository
(`common/rate_limiting.py`, `common/retry_runner.py`, and the thread-based
rate-limiter variants in `cursor_prompt_preprocessor/agent.py` and
`multi_agent_loop/agent.py`).

Modelling conventions:
* wall-clock instants and delays are rationals (`ℚ`);
* Python strings are modelled as `String` / `List Char`; `str.upper` is the
  per-character ASCII upper-casing (the error texts handled here are ASCII);
* the regular expressions used by the source are hand-compiled into
  executable matchers over `List Char`, following Python `re.search`
  semantics (leftmost match position, greedy quantifiers with backtracking);
* `random.uniform(0, hi)` is modelled as `hi * u` for a sample `u ∈ [0, 1]`
  supplied as a function parameter;
* blocking / cooperative sleeps advance the model clock by exactly the
  requested duration.
-/

/- The arithmetic of `Rat` is `@[irreducible]` upstream, which blocks
`decide`-based evaluation of the executable model on concrete rationals;
restore the default reducibility of the four operations. -/
set_option allowUnsafeReducibility true in
attribute [semireducible] Rat.mul Rat.inv Rat.add Rat.sub

/- ---------------------------------------------------------------- -/
/- Character classes and substring search                            -/
/- ---------------------------------------------------------------- -/

/-- The regex class `\d` (ASCII digits, which is what the error strings carry). -/
def isDigitCh (c : Char) : Bool :=
  decide (48 ≤ c.toNat) && decide (c.toNat ≤ 57)

/-- The regex class `\s` (space, tab, newline, carriage return, form feed,
vertical tab). -/
def isSpaceCh (c : Char) : Bool :=
  c.toNat = 32 || c.toNat = 9 || c.toNat = 10 || c.toNat = 13 ||
    c.toNat = 12 || c.toNat = 11

/-- The regex class `['\"]`: a single or a double quote. -/
def isQuoteCh (c : Char) : Bool :=
  c.toNat = 39 || c.toNat = 34

/-- `leadsWith needle hay` holds when `needle` begins `hay`. -/
def leadsWith : List Char → List Char → Bool
  | [], _ => true
  | _ :: _, [] => false
  | c :: cs, x :: xs => x = c && leadsWith cs xs

/-- Python substring containment `needle in hay`. -/
def containsSub : List Char → List Char → Bool
  | [], needle => leadsWith needle []
  | x :: xs, needle => leadsWith needle (x :: xs) || containsSub xs needle

/-- Python `str.upper`, per character (ASCII). -/
def upperStr (s : List Char) : List Char := s.map Char.toUpper

/- ---------------------------------------------------------------- -/
/- `is_429_error` (common/retry_runner.py, lines 33-37)               -/
/- ---------------------------------------------------------------- -/

/-- `is_429_error(error)`: classify from the textual representation of the
error — `"429" in error_content or "RESOURCE_EXHAUSTED" in error_content.upper()`
— and return the text alongside the flag. -/
def is_429_error (errorContent : String) : Bool × String :=
  (containsSub errorContent.data "429".data ||
    containsSub (upperStr errorContent.data) "RESOURCE_EXHAUSTED".data,
   errorContent)

/- ---------------------------------------------------------------- -/
/- Facts about substring search                                      -/
/- ---------------------------------------------------------------- -/

theorem leadsWith_iff (needle hay : List Char) :
    leadsWith needle hay = true ↔ needle <+: hay := by
  induction needle generalizing hay with
  | nil => simp [leadsWith]
  | cons c cs ih =>
    cases hay with
    | nil => simp [leadsWith]
    | cons x xs =>
      simp only [leadsWith, Bool.and_eq_true, decide_eq_true_eq, ih]
      constructor
      · rintro ⟨rfl, t, rfl⟩
        exact ⟨t, rfl⟩
      · rintro ⟨t, h⟩
        cases h
        exact ⟨rfl, t, rfl⟩

theorem containsSub_iff (hay needle : List Char) :
    containsSub hay needle = true ↔ needle <:+: hay := by
  induction hay with
  | nil =>
    simp [containsSub, leadsWith_iff, List.prefix_nil, List.infix_nil]
  | cons x xs ih =>
    simp only [containsSub, Bool.or_eq_true, leadsWith_iff, ih]
    exact List.infix_cons_iff.symm

/-- `leadsWith` against a mapped list: the needle is the image of a real
initial segment. -/
theorem leadsWith_map_iff (f : Char → Char) (needle s : List Char) :
    leadsWith needle (s.map f) = true ↔ ∃ u, u <+: s ∧ u.map f = needle := by
  induction needle generalizing s with
  | nil =>
    simp only [leadsWith, true_iff]
    exact ⟨[], List.nil_prefix, rfl⟩
  | cons c cs ih =>
    cases s with
    | nil =>
      simp only [List.map_nil, leadsWith, Bool.false_eq_true, false_iff]
      rintro ⟨u, hu, hm⟩
      rcases List.prefix_nil.mp hu with rfl
      simp at hm
    | cons x xs =>
      simp only [List.map_cons, leadsWith, Bool.and_eq_true, decide_eq_true_eq, ih]
      constructor
      · rintro ⟨rfl, u, hu, rfl⟩
        exact ⟨x :: u, List.cons_prefix_cons.mpr ⟨rfl, hu⟩, rfl⟩
      · rintro ⟨u, hu, hm⟩
        cases u with
        | nil => simp at hm
        | cons y ys =>
          rcases List.cons_prefix_cons.mp hu with ⟨rfl, hys⟩
          simp only [List.map_cons, List.cons.injEq] at hm
          exact ⟨hm.1, ys, hys, hm.2⟩

/-- `containsSub` against a mapped list: the needle is the image of a real
contiguous fragment. -/
theorem containsSub_map_iff (f : Char → Char) (s needle : List Char) :
    containsSub (s.map f) needle = true ↔ ∃ u, u <:+: s ∧ u.map f = needle := by
  induction s with
  | nil =>
    simp only [List.map_nil, containsSub, leadsWith_iff, List.prefix_nil]
    constructor
    · rintro rfl
      exact ⟨[], List.infix_rfl, rfl⟩
    · rintro ⟨u, hu, hm⟩
      rcases List.infix_nil.mp hu with rfl
      simp only [List.map_nil] at hm
      exact hm.symm
  | cons x xs ih =>
    simp only [List.map_cons, containsSub, Bool.or_eq_true]
    rw [show (f x :: xs.map f) = ((x :: xs).map f) by simp, leadsWith_map_iff]
    constructor
    · rintro (⟨u, hu, hm⟩ | h)
      · exact ⟨u, hu.isInfix, hm⟩
      · rcases ih.mp h with ⟨u, hu, hm⟩
        exact ⟨u, hu.trans (List.infix_cons List.infix_rfl), hm⟩
    · rintro ⟨u, hu, hm⟩
      rcases List.infix_cons_iff.mp hu with h | h
      · exact Or.inl ⟨u, h, hm⟩
      · exact Or.inr (ih.mpr ⟨u, h, hm⟩)

/- ---------------------------------------------------------------- -/
/- Hand-compiled regex pieces                                        -/
/- ---------------------------------------------------------------- -/

/-- Consume an exact sequence of literal characters; return the rest on
success. -/
def eatLit : List Char → List Char → Option (List Char)
  | [], s => some s
  | _ :: _, [] => none
  | c :: cs, x :: xs => if x = c then eatLit cs xs else none

/-- Greedy `\s*`. -/
def dropSpaces : List Char → List Char
  | [] => []
  | c :: cs => if isSpaceCh c then dropSpaces cs else c :: cs

/-- Greedy `\d+` / `\d*`: split off the maximal run of digits. -/
def spanDigits : List Char → List Char × List Char
  | [] => ([], [])
  | c :: cs =>
    if isDigitCh c then ((c :: (spanDigits cs).1), (spanDigits cs).2)
    else ([], c :: cs)

/-- Greedy optional fraction `(?:\.\d+)?`: on success return the consumed
characters (dot plus digits) and the rest. -/
def tryFrac : List Char → Option (List Char × List Char)
  | [] => none
  | c :: cs =>
    if c.toNat = 46 then
      match spanDigits cs with
      | ([], _) => none
      | (ds, r) => some (c :: ds, r)
    else none

/-- `s?['\"]` (regex tail of the quoted `retryDelay` pattern): an optional
letter `s` followed by a closing quote.  Greedy with backtracking: if the
optional `s` is taken but no quote follows, retry without it. -/
def sQuoteOk : List Char → Bool
  | [] => false
  | x :: xs =>
    if x.toNat = 115 then
      (match xs with
       | [] => false
       | y :: _ => isQuoteCh y) || isQuoteCh x
    else isQuoteCh x

/-- Match, at the current position, the pattern of `common/retry_runner.py`
line 13: `['\"]retryDelay['\"]:\s*['\"](\d+(?:\.\d+)?)s?['\"]`.  On success
return the characters of capture group 1. -/
def matchQuotedDelayAt (s : List Char) : Option (List Char) :=
  match s with
  | [] => none
  | q1 :: r1 =>
    if isQuoteCh q1 then
      match eatLit "retryDelay".data r1 with
      | none => none
      | some r2 =>
        match r2 with
        | [] => none
        | q2 :: r3 =>
          if isQuoteCh q2 then
            match r3 with
            | [] => none
            | colon :: r4 =>
              if colon.toNat = 58 then
                match dropSpaces r4 with
                | [] => none
                | q3 :: r5 =>
                  if isQuoteCh q3 then
                    match spanDigits r5 with
                    | ([], _) => none
                    | (ds, r6) =>
                      -- greedy fraction first, then the no-fraction fallback
                      match tryFrac r6 with
                      | some (fc, r7) =>
                        if sQuoteOk r7 then some (ds ++ fc)
                        else if sQuoteOk r6 then some ds else none
                      | none =>
                        if sQuoteOk r6 then some ds else none
                  else none
              else none
          else none
    else none

/-- Match, at the current position, the pattern of `common/retry_runner.py`
line 20: `retryDelay:\s*(\d+(?:\.\d+)?)`.  On success return the characters
of capture group 1. -/
def matchBareDelayAt (s : List Char) : Option (List Char) :=
  match eatLit "retryDelay:".data s with
  | none => none
  | some r1 =>
    match spanDigits (dropSpaces r1) with
    | ([], _) => none
    | (ds, r2) =>
      match tryFrac r2 with
      | some (fc, _) => some (ds ++ fc)
      | none => some ds

/-- Match, at the current position, the pattern of `common/retry_runner.py`
line 25: `[Rr]etry-[Aa]fter:\s*(\d+)`.  On success return the characters of
capture group 1. -/
def matchRetryAfterAt (s : List Char) : Option (List Char) :=
  match s with
  | [] => none
  | c1 :: r1 =>
    if c1.toNat = 82 || c1.toNat = 114 then
      match eatLit "etry-".data r1 with
      | none => none
      | some r2 =>
        match r2 with
        | [] => none
        | c2 :: r3 =>
          if c2.toNat = 65 || c2.toNat = 97 then
            match eatLit "fter:".data r3 with
            | none => none
            | some r4 =>
              match spanDigits (dropSpaces r4) with
              | ([], _) => none
              | (ds, _) => some ds
          else none
    else none

/-- `re.search`: try the position matcher at each start position, leftmost
first. -/
def searchWith (m : List Char → Option (List Char)) : List Char → Option (List Char)
  | [] => m []
  | x :: xs =>
    match m (x :: xs) with
    | some g => some g
    | none => searchWith m xs

/- ---------------------------------------------------------------- -/
/- Numeric parsing of a captured group                               -/
/- ---------------------------------------------------------------- -/

/-- Value of a digit character. -/
def digitVal (c : Char) : ℕ := c.toNat - 48

/-- Value of a digit run. -/
def digitsVal (ds : List Char) : ℕ := ds.foldl (fun acc c => 10 * acc + digitVal c) 0

/-- Python `float` on a captured group of the shape `\d+(\.\d+)?`, as an
exact rational. -/
def groupToQ (g : List Char) : ℚ :=
  match spanDigits g with
  | (ds, rest) =>
    match rest with
    | [] => (digitsVal ds : ℚ)
    | _ :: fs => (digitsVal ds : ℚ) + (digitsVal fs : ℚ) / (10 : ℚ) ^ fs.length

/- ---------------------------------------------------------------- -/
/- `extract_retry_delay` (common/retry_runner.py, lines 9-30)         -/
/- ---------------------------------------------------------------- -/

/-- `extract_retry_delay(error_content)`: try the quoted `retryDelay`
pattern, then the bare `retryDelay:` pattern, then the `Retry-After` header
pattern, and return the first captured number; default `5.0` when nothing
matches. -/
def extract_retry_delay (errorContent : String) : ℚ :=
  match searchWith matchQuotedDelayAt errorContent.data with
  | some g => groupToQ g
  | none =>
    match searchWith matchBareDelayAt errorContent.data with
    | some g => groupToQ g
    | none =>
      match searchWith matchRetryAfterAt errorContent.data with
      | some g => groupToQ g
      | none => 5

/- ---------------------------------------------------------------- -/
/- `retry_with_simple_backoff` (common/retry_runner.py, lines 40-113) -/
/- ---------------------------------------------------------------- -/

/-- Result of `raise` at the end of the Python retry loop.  `raisedNone`
models executing `raise last_exception` while `last_exception` is still
`None`, which in Python raises a `TypeError` instead of an operation
failure. -/
inductive RetryOutcome (E A : Type) where
  | ok : A → RetryOutcome E A
  | raised : E → RetryOutcome E A
  | raisedNone : RetryOutcome E A
  deriving DecidableEq

/-- Observable behaviour of one `retry_with_simple_backoff` run: the final
outcome, how many times the wrapped operation was invoked, and the
durations of the sleeps performed between attempts, in order. -/
structure RetryOut (E A : Type) where
  outcome : RetryOutcome E A
  calls : ℕ
  sleeps : List ℚ
  deriving DecidableEq

/-- `raise last_exception` once the loop is over. -/
def raiseLast {E A : Type} : Option E → RetryOutcome E A
  | none => .raisedNone
  | some e => .raised e

/-- Delay chosen before a non-final retry (lines 91-108): the API-specified
delay for a classified 429 error (no jitter), otherwise
`base_delay * (2 ** attempt)` plus `random.uniform(0, delay * 0.1)`.  The
uniform draw is modelled as `(delay * (1/10)) * unif attempt` with
`unif attempt` the standard-uniform sample in `[0, 1]`. -/
def attemptDelay (errorContent : String) (attempt : ℕ) (baseDelay : ℚ)
    (unif : ℕ → ℚ) : ℚ :=
  if (is_429_error errorContent).1 then extract_retry_delay errorContent
  else
    baseDelay * 2 ^ attempt + baseDelay * 2 ^ attempt * (1 / 10) * unif attempt

/-- The body of `for attempt in range(max_retries + 1)`.  The wrapped
operation is modelled as `f : ℕ → Except E A` giving the outcome of its
`attempt`-th invocation; `toStr` is Python `str` on exceptions.  The fuel
argument is the number of loop iterations still permitted by `range`;
`last`, `calls` and `sleeps` accumulate `last_exception`, the invocation
count and the performed sleeps (most recent first). -/
def retryAux {E A : Type} (toStr : E → String) (f : ℕ → Except E A)
    (maxRetries : ℤ) (baseDelay : ℚ) (unif : ℕ → ℚ) :
    ℕ → ℕ → Option E → ℕ → List ℚ → RetryOut E A
  | _, 0, last, calls, sleeps => ⟨raiseLast last, calls, sleeps.reverse⟩
  | attempt, fuel + 1, _, calls, sleeps =>
    match f attempt with
    | .ok a => ⟨.ok a, calls + 1, sleeps.reverse⟩
    | .error e =>
      -- `if attempt >= max_retries: break`, then `raise last_exception`
      if maxRetries ≤ (attempt : ℤ) then ⟨.raised e, calls + 1, sleeps.reverse⟩
      else
        retryAux toStr f maxRetries baseDelay unif (attempt + 1) fuel (some e)
          (calls + 1) (attemptDelay (toStr e) attempt baseDelay unif :: sleeps)

/-- `retry_with_simple_backoff(func, max_retries, base_delay, ...)`:
`range(max_retries + 1)` iterations starting at `attempt = 0` with
`last_exception = None`. -/
def retry_with_simple_backoff {E A : Type} (toStr : E → String)
    (f : ℕ → Except E A) (maxRetries : ℤ) (baseDelay : ℚ) (unif : ℕ → ℚ) :
    RetryOut E A :=
  retryAux toStr f maxRetries baseDelay unif 0 (maxRetries + 1).toNat none 0 []

/- ---------------------------------------------------------------- -/
/- Async `RateLimiter` (common/rate_limiting.py, lines 10-68)         -/
/- ---------------------------------------------------------------- -/

/-- Lines 45-46: pop entries from the left of `call_history` while the
oldest entry is older than `current_time - window_seconds`. -/
def pruneHistory (window now : ℚ) : List ℚ → List ℚ
  | [] => []
  | t :: rest => if t < now - window then pruneHistory window now rest else t :: rest

/-- One run of the `while True` admission loop of the async
`wait_if_needed` (lines 34-58), holding the lock throughout.  Each
iteration: sleep out the explicit `_next_allowed_call_time` hold if needed,
prune the window, admit when `len(call_history) < max_calls` (appending the
admission instant), otherwise sleep `(oldest + window) - now + 0.01` and
loop.  Sleeps advance the clock by exactly the requested duration.  The
fuel argument bounds the number of iterations; `none` means the loop did
not grant within the fuel (in the source with `max_calls = 0` the loop
raises `IndexError` instead of granting). -/
def waitLoop (maxCalls : ℕ) (window nextAllowed : ℚ) :
    ℕ → List ℚ → ℚ → Option (ℚ × List ℚ)
  | 0, _, _ => none
  | fuel + 1, hist, now =>
    let now1 := if now < nextAllowed then nextAllowed else now
    let hist1 := pruneHistory window now1 hist
    if hist1.length < maxCalls then some (now1, hist1 ++ [now1])
    else
      match hist1 with
      | [] => none
      | oldest :: _ =>
        waitLoop maxCalls window nextAllowed fuel hist1 (oldest + window + 1 / 100)

/-- `wait_if_needed()` on state `(hist, nextAllowed)` entered at instant
`now`: returns the admission instant and the new `call_history`.  Fuel
`hist.length + 2` covers the worst case: one iteration that prunes
nothing, then at most `hist.length` iterations each of which removes at
least one expired entry, then the granting iteration. -/
def wait_if_needed (maxCalls : ℕ) (window nextAllowed : ℚ) (hist : List ℚ)
    (now : ℚ) : Option (ℚ × List ℚ) :=
  waitLoop maxCalls window nextAllowed (hist.length + 2) hist now

/-- `update_next_allowed_call_time(delay_seconds)` (lines 60-68):
`_next_allowed_call_time = max(_next_allowed_call_time, time.time() + delay_seconds)`.
No validation is applied to `delay_seconds`, negative values included. -/
def update_next_allowed_call_time (nextAllowed now delaySeconds : ℚ) : ℚ :=
  max nextAllowed (now + delaySeconds)

/-- A single caller performing one `wait_if_needed` per listed arrival
instant, each call issued at its arrival instant or as soon as the previous
call returned, whichever is later.  Records each admission instant together
with the `call_history` immediately after that grant. -/
def runCalls (maxCalls : ℕ) (window nextAllowed : ℚ) :
    List ℚ → ℚ → List ℚ → Option (List (ℚ × List ℚ))
  | [], _, _ => some []
  | a :: rest, clock, hist =>
    let start := if clock < a then a else clock
    match wait_if_needed maxCalls window nextAllowed hist start with
    | none => none
    | some (t, hist1) =>
      match runCalls maxCalls window nextAllowed rest t hist1 with
      | none => none
      | some recs => some ((t, hist1) :: recs)

/- ---------------------------------------------------------------- -/
/- Thread-based `RateLimiter` variants                                -/
/- ---------------------------------------------------------------- -/

/-- `wait_if_needed` of `cursor_prompt_preprocessor/agent.py` (lines
99-123): admit immediately while `len(call_history) < max_calls`;
otherwise look at the oldest entry only, sleep
`window - (now - oldest) + 0.1` if the oldest is still inside the window,
then unconditionally pop the oldest and append the (possibly advanced)
current instant. -/
def cursorWait (maxCalls : ℕ) (window : ℚ) (hist : List ℚ) (now : ℚ) :
    ℚ × List ℚ :=
  if hist.length < maxCalls then (now, hist ++ [now])
  else
    match hist with
    | [] => (now, [now])
    | oldest :: rest =>
      if now - oldest < window then
        let now1 := now + (window - (now - oldest) + 1 / 10)
        (now1, rest ++ [now1])
      else (now, rest ++ [now])

/-- `wait_if_needed` of `multi_agent_loop/agent.py` (lines 30-56): same
single-check shape as the cursor variant but with no added buffer
(`wait_time = window_seconds - time_elapsed` exactly) and no lock. -/
def multiWait (maxCalls : ℕ) (window : ℚ) (hist : List ℚ) (now : ℚ) :
    ℚ × List ℚ :=
  if hist.length < maxCalls then (now, hist ++ [now])
  else
    match hist with
    | [] => (now, [now])
    | oldest :: rest =>
      if now - oldest < window then
        let now1 := now + (window - (now - oldest))
        (now1, rest ++ [now1])
      else (now, rest ++ [now])

/-- Sequential driver for the cursor-variant limiter, mirroring
`runCalls`. -/
def runCursor (maxCalls : ℕ) (window : ℚ) :
    List ℚ → ℚ → List ℚ → List (ℚ × List ℚ)
  | [], _, _ => []
  | a :: rest, clock, hist =>
    let start := if clock < a then a else clock
    match cursorWait maxCalls window hist start with
    | (t, hist1) => (t, hist1) :: runCursor maxCalls window rest t hist1

/-- Sequential driver for the multi_agent_loop-variant limiter, mirroring
`runCalls`. -/
def runMulti (maxCalls : ℕ) (window : ℚ) :
    List ℚ → ℚ → List ℚ → List (ℚ × List ℚ)
  | [], _, _ => []
  | a :: rest, clock, hist =>
    let start := if clock < a then a else clock
    match multiWait maxCalls window hist start with
    | (t, hist1) => (t, hist1) :: runMulti maxCalls window rest t hist1

/- ---------------------------------------------------------------- -/
/- `handle_rate_limit` (common/rate_limiting.py, lines 92-149)        -/
/- ---------------------------------------------------------------- -/

/-- Match, at the current position, the pattern actually compiled from
line 120 of `common/rate_limiting.py`.  The pattern is written inside a
Python *raw* string as
`['\"]retryDelay['\"]:\s*['\"](\\d+)(?:\\.\\d+)?s['\"]`, so the doubled
backslashes reach the regex engine as escaped backslashes: capture group 1
`(\\d+)` matches a literal backslash followed by one or more letters `d`,
and the optional part `(?:\\.\\d+)?` matches backslash, any character,
backslash, letters `d` — not digits.  On success return the characters of
capture group 1. -/
def matchBrokenDelayAt (s : List Char) : Option (List Char) :=
  match s with
  | [] => none
  | q1 :: r1 =>
    if isQuoteCh q1 then
      match eatLit "retryDelay".data r1 with
      | none => none
      | some r2 =>
        match r2 with
        | [] => none
        | q2 :: r3 =>
          if isQuoteCh q2 then
            match r3 with
            | [] => none
            | colon :: r4 =>
              if colon.toNat = 58 then
                match dropSpaces r4 with
                | [] => none
                | q3 :: r5 =>
                  if isQuoteCh q3 then
                    match r5 with
                    | [] => none
                    | b1 :: r6 =>
                      -- group 1: a literal backslash then `d+`
                      if b1.toNat = 92 then
                        match r6.span (fun c => c.toNat = 100) with
                        | ([], _) => none
                        | (ds, r7) =>
                          -- optional `\\.\\d+`, then literal `s`, then a quote
                          match brokenTail r7 with
                          | true => some (b1 :: ds)
                          | false => none
                      else none
                  else none
              else none
          else none
    else none
where
  /-- `(?:\\.\\d+)?s['\"]`: optionally a backslash, any character, a
  backslash and `d+`; then `s` and a closing quote. -/
  brokenTail (r : List Char) : Bool :=
    (match r with
     | b2 :: c :: b3 :: r8 =>
       if b2.toNat = 92 && b3.toNat = 92 && (c.toNat ≠ 10) then
         match r8.span (fun ch => ch.toNat = 100) with
         | ([], _) => false
         | (_, r9) => sQuoteLit r9
       else false
     | _ => false) || sQuoteLit r
  /-- literal `s` then a quote. -/
  sQuoteLit (r : List Char) : Bool :=
    match r with
    | s1 :: q :: _ => s1.toNat = 115 && isQuoteCh q
    | _ => false

/-- Python `float()` restricted to the grammar fragment
`[+-]?\d+(\.\d+)?` (sign, digits, optional fraction); every other input
raises `ValueError`, modelled as `none`.  Exponents, `inf`/`nan` and
surrounding whitespace are omitted: the capture groups produced by the
pattern above always begin with a backslash, which every `float()` grammar
rejects. -/
def pyFloatQ (g : List Char) : Option ℚ :=
  match g with
  | [] => none
  | c :: rest =>
    let body := if c.toNat = 43 || c.toNat = 45 then rest else g
    let sign : ℚ := if c.toNat = 45 then -1 else 1
    match spanDigits body with
    | ([], _) => none
    | (ds, tail) =>
      match tail with
      | [] => some (sign * (digitsVal ds : ℚ))
      | d :: fs =>
        if d.toNat = 46 then
          match fs with
          | [] => none
          | _ =>
            match spanDigits fs with
            | (fds, []) =>
              if fds.length = fs.length then
                some (sign * ((digitsVal ds : ℚ) + (digitsVal fds : ℚ) / (10 : ℚ) ^ fds.length))
              else none
            | _ => none
        else none

/-- Lines 114-127 of `handle_rate_limit`: start from the default
`retry_delay_seconds = 5.0`, search the (mis-escaped) pattern, and on a
match attempt `float(group(1))`; any parse failure is swallowed by the
surrounding `try`/`except`, leaving the default. -/
def handleDelay (errorContent : String) : ℚ :=
  match searchWith matchBrokenDelayAt errorContent.data with
  | some g =>
    match pyFloatQ g with
    | some q => q
    | none => 5
  | none => 5

/-- `handle_rate_limit(callback_context, llm_response)` reduced to its
state effect.  `errorContent` is the error text extracted from the
response object (`none` when the duck-typed probing found no error text).
If the text classifies as a rate-limit error (line 111, the same rule as
`is_429_error`), the limiter hold becomes
`update_next_allowed_call_time(retry_delay_seconds + 0.5)` and a
framework-shaped response is returned (`true`); otherwise the state is
unchanged and `None` is returned (`false`). -/
def handle_rate_limit (nextAllowed now : ℚ) (errorContent : Option String) :
    ℚ × Bool :=
  match errorContent with
  | none => (nextAllowed, false)
  | some ec =>
    if containsSub ec.data "429".data ||
        containsSub (upperStr ec.data) "RESOURCE_EXHAUSTED".data then
      (update_next_allowed_call_time nextAllowed now (handleDelay ec + 1 / 2), true)
    else (nextAllowed, false)

/-- The error text used to exhibit the `handle_rate_limit` extraction bug:
a rate-limit error carrying a `retryDelay` hint in exactly the shape the
source's own comment (line 117) documents. -/
def rateLimitHintText : String :=
  "429 RESOURCE_EXHAUSTED \x27retryDelay\x27: \x273s\x27"

/- ---------------------------------------------------------------- -/
/- Lemmas: pruning                                                   -/
/- ---------------------------------------------------------------- -/

theorem pruneHistory_suffix (w now : ℚ) : ∀ l, pruneHistory w now l <:+ l := by
  intro l
  induction l with
  | nil => simp [pruneHistory]
  | cons t rest ih =>
    simp only [pruneHistory]
    split
    · exact ih.trans (List.suffix_cons t rest)
    · exact List.suffix_rfl

theorem pruneHistory_subset (w now : ℚ) (l : List ℚ) :
    ∀ x ∈ pruneHistory w now l, x ∈ l :=
  fun _ hx => (pruneHistory_suffix w now l).sublist.subset hx

theorem pruneHistory_sorted (w now : ℚ) (l : List ℚ)
    (hl : l.Sorted (· ≤ ·)) : (pruneHistory w now l).Sorted (· ≤ ·) :=
  hl.sublist (pruneHistory_suffix w now l).sublist

theorem pruneHistory_lb (w now : ℚ) :
    ∀ l : List ℚ, l.Sorted (· ≤ ·) → ∀ x ∈ pruneHistory w now l, now - w ≤ x := by
  intro l
  induction l with
  | nil => intro _ x hx; simp [pruneHistory] at hx
  | cons t rest ih =>
    intro hs x hx
    simp only [pruneHistory] at hx
    rcases lt_or_le t (now - w) with h | h
    · rw [if_pos h] at hx
      exact ih hs.of_cons x hx
    · rw [if_neg (not_lt.mpr h)] at hx
      rcases List.mem_cons.mp hx with rfl | hx
      · exact h
      · exact le_trans h ((List.sorted_cons.mp hs).1 x hx)

/- ---------------------------------------------------------------- -/
/- Lemmas: the admission loop                                        -/
/- ---------------------------------------------------------------- -/

/-- Invariant carried by the admission loop: starting from a sorted history
whose entries all lie in the past, a granted admission at instant `t` is no
earlier than the entry instant, and leaves a sorted history whose entries
all lie in `[t - window, t]` with at most `max_calls` of them. -/
theorem waitLoop_spec (m : ℕ) (w next : ℚ) (hw : 0 ≤ w) :
    ∀ fuel (hist : List ℚ) (now t : ℚ) (hres : List ℚ),
      hist.Sorted (· ≤ ·) → (∀ x ∈ hist, x ≤ now) →
      waitLoop m w next fuel hist now = some (t, hres) →
      now ≤ t ∧ hres.Sorted (· ≤ ·) ∧
        (∀ x ∈ hres, t - w ≤ x ∧ x ≤ t) ∧ hres.length ≤ m := by
  intro fuel
  induction fuel with
  | zero =>
    intro hist now t hres _ _ hrun
    simp [waitLoop] at hrun
  | succ n ih =>
    intro hist now t hres hs hub hrun
    simp only [waitLoop] at hrun
    set now1 := if now < next then next else now with hnow1
    have hnn : now ≤ now1 := by
      simp only [hnow1]
      split

      · exact le_of_lt (by assumption)
      · exact le_rfl
    set hist1 := pruneHistory w now1 hist with hhist1
    have hs1 : hist1.Sorted (· ≤ ·) := pruneHistory_sorted w now1 hist hs
    have hub1 : ∀ x ∈ hist1, x ≤ now1 :=
      fun x hx => le_trans (hub x (pruneHistory_subset w now1 hist x hx)) hnn
    have hlb1 : ∀ x ∈ hist1, now1 - w ≤ x := pruneHistory_lb w now1 hist hs
    by_cases hfit : hist1.length < m
    · rw [if_pos hfit] at hrun
      have hinj := Option.some.inj hrun
      injection hinj with ht hh
      subst ht
      subst hh
      refine ⟨hnn, ?_, ?_, ?_⟩
      · exact List.pairwise_append.mpr
          ⟨hs1, List.sorted_singleton _,
           fun x hx y hy => (List.mem_singleton.mp hy) ▸ hub1 x hx⟩
      · intro x hx
        rcases List.mem_append.mp hx with hx | hx
        · exact ⟨hlb1 x hx, hub1 x hx⟩
        · rcases List.mem_singleton.mp hx with rfl
          exact ⟨by linarith, le_rfl⟩
      · rw [List.length_append, List.length_singleton]
        omega
    · rw [if_neg hfit] at hrun
      cases hh1 : hist1 with
      | nil => rw [hh1] at hrun; simp at hrun
      | cons oldest rest2 =>
        rw [hh1] at hrun
        have holdest : oldest ∈ hist1 := hh1 ▸ List.mem_cons_self oldest rest2
        have hnext : now1 ≤ oldest + w + 1 / 100 := by
          have := hlb1 oldest holdest
          linarith
        have hub2 : ∀ x ∈ hist1, x ≤ oldest + w + 1 / 100 :=
          fun x hx => le_trans (hub1 x hx) hnext
        have := ih hist1 (oldest + w + 1 / 100) t hres hs1 hub2 (hh1 ▸ hrun)
        exact ⟨le_trans (le_trans hnn hnext) this.1, this.2.1, this.2.2.1, this.2.2.2⟩

/-- Lifting of `waitLoop_spec` over a whole sequence of calls. -/
theorem runCalls_spec (m : ℕ) (w next : ℚ) (hw : 0 ≤ w) :
    ∀ (arrivals : List ℚ) (clock : ℚ) (hist : List ℚ) (recs : List (ℚ × List ℚ)),
      hist.Sorted (· ≤ ·) → (∀ x ∈ hist, x ≤ clock) →
      runCalls m w next arrivals clock hist = some recs →
      ∀ p ∈ recs, p.2.Sorted (· ≤ ·) ∧
        (∀ x ∈ p.2, p.1 - w ≤ x ∧ x ≤ p.1) ∧ p.2.length ≤ m := by
  intro arrivals
  induction arrivals with
  | nil =>
    intro clock hist recs _ _ hrun p hp
    simp only [runCalls] at hrun
    rcases Option.some.inj hrun with rfl
    simp at hp
  | cons a rest ih =>
    intro clock hist recs hs hub hrun p hp
    simp only [runCalls] at hrun
    set start := if clock < a then a else clock with hstart
    have hcs : clock ≤ start := by
      simp only [hstart]
      split
      · exact le_of_lt (by assumption)
      · exact le_rfl
    split at hrun
    · exact absurd hrun (by simp)
    next t hist1 hw1 =>
      have hub' : ∀ x ∈ hist, x ≤ start := fun x hx => le_trans (hub x hx) hcs
      have hspec := waitLoop_spec m w next hw (hist.length + 2) hist start t hist1 hs hub' hw1
      split at hrun
      · exact absurd hrun (by simp)
      next recs2 hrec =>
        rcases Option.some.inj hrun with rfl
        rcases List.mem_cons.mp hp with rfl | hp2
        · exact ⟨hspec.2.1, hspec.2.2.1, hspec.2.2.2⟩
        · exact ih t hist1 recs2 hspec.2.1
            (fun x hx => (hspec.2.2.1 x hx).2) hrec p hp2

/-- C1: sliding-window cap invariant.  Starting from a fresh limiter
(empty `call_history`, `_next_allowed_call_time = 0`), along any sequence
of `wait_if_needed` calls, immediately after each granted permit every
recorded timestamp lies within `[now - window_seconds, now]` of the grant
instant `now`, and the history holds at most `max_calls` entries — so at
no instant do more than `max_calls` recorded timestamps lie inside the
most recent window. -/
theorem sliding_window_cap_invariant (m : ℕ) (w : ℚ) (arrivals : List ℚ)
    (recs : List (ℚ × List ℚ)) (hw : 0 ≤ w)
    (hrun : runCalls m w 0 arrivals 0 [] = some recs) :
    ∀ p ∈ recs, p.2.length ≤ m ∧ ∀ x ∈ p.2, p.1 - w ≤ x ∧ x ≤ p.1 := by
  intro p hp
  have := runCalls_spec m w 0 hw arrivals 0 [] recs List.sorted_nil
    (by intro x hx; simp at hx) hrun p hp
  exact ⟨this.2.2, this.2.1⟩

/-- Witness for C1: `max_calls = 2`, `window_seconds = 60`, three
back-to-back calls; the third is admitted at `60.01` with a singleton
history inside its window. -/
theorem sliding_window_cap_invariant_witness :
    (0 : ℚ) ≤ 60 ∧
    runCalls 2 60 0 [0, 0, 0] 0 [] =
      some [((0 : ℚ), [(0 : ℚ)]), (0, [0, 0]),
            (60 + 1 / 100, [60 + 1 / 100])] ∧
    (([(60 : ℚ) + 1 / 100]).length ≤ 2 ∧
      ∀ x ∈ [(60 : ℚ) + 1 / 100], (60 + 1 / 100) - 60 ≤ x ∧ x ≤ 60 + 1 / 100) :=
  ⟨by norm_num, by decide,
    sliding_window_cap_invariant 2 60 [0, 0, 0]
      [((0 : ℚ), [(0 : ℚ)]), (0, [0, 0]), (60 + 1 / 100, [60 + 1 / 100])]
      (by norm_num) (by decide)
      (60 + 1 / 100, [60 + 1 / 100]) (by decide)⟩

/-- C3: `update_next_allowed_call_time` is the monotonic ratchet
`next := max(next, now + delay)`: it never decreases the stored hold, and a
second call from the same reference instant with a smaller delay leaves
the hold governed by the first delay.  `delaySeconds` ranges over all of
`ℚ`, negative delays included — the source applies no validation. -/
theorem update_next_allowed_ratchet (nextAllowed now d1 d2 : ℚ) :
    update_next_allowed_call_time nextAllowed now d1 = max nextAllowed (now + d1) ∧
    nextAllowed ≤ update_next_allowed_call_time nextAllowed now d1 ∧
    (d2 < d1 →
      update_next_allowed_call_time
          (update_next_allowed_call_time nextAllowed now d1) now d2 =
        update_next_allowed_call_time nextAllowed now d1) := by
  refine ⟨rfl, le_max_left _ _, fun h => ?_⟩
  unfold update_next_allowed_call_time
  exact max_eq_left (le_trans (by linarith) (le_max_right nextAllowed (now + d1)))

/-- Witness for C3 at `next = 0`, `now = 100`, `d1 = 7`, `d2 = -5`. -/
theorem update_next_allowed_ratchet_witness :
    (-5 : ℚ) < 7 ∧
    update_next_allowed_call_time (update_next_allowed_call_time 0 100 7) 100 (-5) =
      update_next_allowed_call_time 0 100 7 :=
  ⟨by norm_num, (update_next_allowed_ratchet 0 100 7 (-5)).2.2 (by norm_num)⟩

/-- C7: `is_429_error` returns `true` exactly when the error text contains
the substring `429`, or contains `RESOURCE_EXHAUSTED` case-insensitively
(a fragment whose per-character upper-casing is `RESOURCE_EXHAUSTED`), and
it also returns the error text itself; the three representative error
messages classify as the spec states. -/
theorem is_429_classification :
    (∀ s : String,
      ((is_429_error s).1 = true ↔
        ("429".data <:+: s.data ∨
          ∃ u, u <:+: s.data ∧ upperStr u = "RESOURCE_EXHAUSTED".data)) ∧
      (is_429_error s).2 = s) ∧
    (is_429_error "429 Too Many Requests").1 = true ∧
    (is_429_error "RESOURCE_EXHAUSTED").1 = true ∧
    (is_429_error "500 Internal Server Error").1 = false := by
  refine ⟨fun s => ⟨?_, rfl⟩, by decide, by decide, by decide⟩
  simp only [is_429_error, Bool.or_eq_true, upperStr]
  rw [containsSub_map_iff, containsSub_iff]

/-- Witness for C7: the forward direction applied to a concrete
classified-true string. -/
theorem is_429_classification_witness :
    "429".data <:+: "HTTP 429".data ∨
      ∃ u, u <:+: "HTTP 429".data ∧ upperStr u = "RESOURCE_EXHAUSTED".data :=
  ((is_429_classification.1 "HTTP 429").1).mp (by decide)

/-- C6 counterexample: the `Retry-After` header pattern is
`[Rr]etry-[Aa]fter`, not case-insensitive on the whole header name; the
fully upper-cased header is not matched and falls through to the `5.0`
default instead of yielding `30`. -/
theorem extract_retry_delay_header_case_counterexample :
    extract_retry_delay "RETRY-AFTER: 30" = 5 ∧ (5 : ℚ) ≠ 30 := by
  constructor
  · decide
  · norm_num

/-- C6 amended: `extract_retry_delay` tries, in order, (1) the quoted
`"retryDelay": "<number>s"` pair (either quote style on either side,
trailing `s` optional), (2) the unquoted `retryDelay: <number>`, (3) the
HTTP `Retry-After: <integer>` header where only the leading letters of
`Retry` and `After` may vary in case, and returns the first successful
match as a number; round-trips hold for n in 1, 5, 10.5, 30; earlier
patterns take precedence; with no match the result is exactly 5.0. -/
theorem extract_retry_delay_spec :
    extract_retry_delay "\"retryDelay\":\"1s\"" = 1 ∧
    extract_retry_delay "\"retryDelay\":\"5s\"" = 5 ∧
    extract_retry_delay "\"retryDelay\":\"10.5s\"" = 21 / 2 ∧
    extract_retry_delay "\"retryDelay\":\"30s\"" = 30 ∧
    extract_retry_delay "\x27retryDelay\x27: \x273s\x27" = 3 ∧
    extract_retry_delay "retryDelay: 12" = 12 ∧
    extract_retry_delay "Retry-After: 30" = 30 ∧
    extract_retry_delay "retry-after: 7" = 7 ∧
    extract_retry_delay "Retry-after: 9" = 9 ∧
    extract_retry_delay "Retry-After: 99 \"retryDelay\":\"2s\"" = 2 ∧
    extract_retry_delay "no matching pattern here" = 5 := by
  decide

/-- C9: `handle_rate_limit` never recovers the documented
`'retryDelay': '<n>s'` hint.  Its pattern is written inside a raw string
with doubled backslashes, so capture group 1 can only match a literal
backslash followed by letters `d`; on the documented error shape the
search finds nothing and the hook ratchets the limiter by the default
`5.0 + 0.5` rather than the advertised `3 + 0.5` — while the corrected
regex of `retry_runner.extract_retry_delay` extracts `3` from the very
same text. -/
theorem handle_rate_limit_extraction_bug :
    searchWith matchBrokenDelayAt rateLimitHintText.data = none ∧
    extract_retry_delay rateLimitHintText = 3 ∧
    handle_rate_limit 0 1000 (some rateLimitHintText) = (1000 + 11 / 2, true) ∧
    ((1000 : ℚ) + 11 / 2 ≠ 1000 + 7 / 2) := by
  refine ⟨by decide, by decide, by decide, by norm_num⟩

/- ---------------------------------------------------------------- -/
/- Lemmas: single steps of the retry loop                            -/
/- ---------------------------------------------------------------- -/

theorem retryAux_zero {E A : Type} (toStr : E → String) (f : ℕ → Except E A)
    (mr : ℤ) (b : ℚ) (u : ℕ → ℚ) (attempt : ℕ) (last : Option E) (calls : ℕ)
    (sleeps : List ℚ) :
    retryAux toStr f mr b u attempt 0 last calls sleeps =
      ⟨raiseLast last, calls, sleeps.reverse⟩ := rfl

theorem retryAux_succ_ok {E A : Type} (toStr : E → String) (f : ℕ → Except E A)
    (mr : ℤ) (b : ℚ) (u : ℕ → ℚ) (attempt fuel : ℕ) (last : Option E)
    (calls : ℕ) (sleeps : List ℚ) {a : A} (hf : f attempt = Except.ok a) :
    retryAux toStr f mr b u attempt (fuel + 1) last calls sleeps =
      ⟨.ok a, calls + 1, sleeps.reverse⟩ := by
  simp only [retryAux]
  rw [hf]

theorem retryAux_succ_err_break {E A : Type} (toStr : E → String)
    (f : ℕ → Except E A) (mr : ℤ) (b : ℚ) (u : ℕ → ℚ) (attempt fuel : ℕ)
    (last : Option E) (calls : ℕ) (sleeps : List ℚ) {e : E}
    (hf : f attempt = Except.error e) (hm : mr ≤ (attempt : ℤ)) :
    retryAux toStr f mr b u attempt (fuel + 1) last calls sleeps =
      ⟨.raised e, calls + 1, sleeps.reverse⟩ := by
  simp only [retryAux]
  rw [hf]
  simp [hm]

theorem retryAux_succ_err_retry {E A : Type} (toStr : E → String)
    (f : ℕ → Except E A) (mr : ℤ) (b : ℚ) (u : ℕ → ℚ) (attempt fuel : ℕ)
    (last : Option E) (calls : ℕ) (sleeps : List ℚ) {e : E}
    (hf : f attempt = Except.error e) (hm : ¬ mr ≤ (attempt : ℤ)) :
    retryAux toStr f mr b u attempt (fuel + 1) last calls sleeps =
      retryAux toStr f mr b u (attempt + 1) fuel (some e) (calls + 1)
        (attemptDelay (toStr e) attempt b u :: sleeps) := by
  simp only [retryAux]
  rw [hf]
  simp [hm]

/-- The loop performs at most `fuel` further invocations. -/
theorem retryAux_calls_le {E A : Type} (toStr : E → String) (f : ℕ → Except E A)
    (mr : ℤ) (b : ℚ) (u : ℕ → ℚ) :
    ∀ (fuel attempt : ℕ) (last : Option E) (calls : ℕ) (sleeps : List ℚ),
      (retryAux toStr f mr b u attempt fuel last calls sleeps).calls ≤ calls + fuel := by
  intro fuel
  induction fuel with
  | zero =>
    intro attempt last calls sleeps
    rw [retryAux_zero]
    show calls ≤ calls + 0
    omega
  | succ n ih =>
    intro attempt last calls sleeps
    cases hf : f attempt with
    | ok a =>
      rw [retryAux_succ_ok toStr f mr b u attempt n last calls sleeps hf]
      show calls + 1 ≤ calls + (n + 1)
      omega
    | error e =>
      by_cases hm : mr ≤ (attempt : ℤ)
      · rw [retryAux_succ_err_break toStr f mr b u attempt n last calls sleeps hf hm]
        show calls + 1 ≤ calls + (n + 1)
        omega
      · rw [retryAux_succ_err_retry toStr f mr b u attempt n last calls sleeps hf hm]
        exact le_trans (ih (attempt + 1) (some e) (calls + 1) _) (by omega)

/-- If the operation fails on every attempt and the fuel is in sync with
`range(max_retries + 1)`, the loop re-raises the failure of the final
attempt after exactly `fuel` further invocations. -/
theorem retryAux_all_fail {E A : Type} (toStr : E → String) (f : ℕ → Except E A)
    (mr : ℤ) (b : ℚ) (u : ℕ → ℚ)
    (hfail : ∀ n, ∃ e, f n = Except.error e) :
    ∀ (fuel attempt : ℕ) (last : Option E) (calls : ℕ) (sleeps : List ℚ) (e : E),
      1 ≤ fuel → (attempt : ℤ) + fuel = mr + 1 →
      f (attempt + fuel - 1) = Except.error e →
      (retryAux toStr f mr b u attempt fuel last calls sleeps).outcome = .raised e ∧
      (retryAux toStr f mr b u attempt fuel last calls sleeps).calls = calls + fuel := by
  intro fuel
  induction fuel with
  | zero => intro _ _ _ _ _ h1 _ _; omega
  | succ n ih =>
    intro attempt last calls sleeps e _ hsum hlast
    rcases Nat.eq_zero_or_pos n with hn | hn
    · subst hn
      have hm : mr ≤ (attempt : ℤ) := by omega
      have he : f attempt = Except.error e := by simpa using hlast
      rw [retryAux_succ_err_break toStr f mr b u attempt 0 last calls sleeps he hm]
      exact ⟨rfl, rfl⟩
    · rcases hfail attempt with ⟨e0, he0⟩
      have hm : ¬ mr ≤ (attempt : ℤ) := by omega
      rw [retryAux_succ_err_retry toStr f mr b u attempt n last calls sleeps he0 hm]
      have hrec := ih (attempt + 1) (some e0) (calls + 1)
        (attemptDelay (toStr e0) attempt b u :: sleeps) e hn (by push_cast; omega)
        (by rw [show attempt + 1 + n - 1 = attempt + (n + 1) - 1 by omega]; exact hlast)
      exact ⟨hrec.1, by rw [hrec.2]; omega⟩

/-- C2: retry bounding and exhaustion re-raise.  The wrapped operation is
invoked at most `max_retries + 1` times; when it fails on every invocation
(and `max_retries ≥ 0`), exactly `max_retries + 1` invocations happen and
the exception raised by the final invocation is re-raised unchanged. -/
theorem retry_bounding_and_reraise {E A : Type} (toStr : E → String)
    (f : ℕ → Except E A) (mr : ℤ) (b : ℚ) (u : ℕ → ℚ) :
    (retry_with_simple_backoff toStr f mr b u).calls ≤ (mr + 1).toNat ∧
    (∀ e : E, 0 ≤ mr → (∀ n, ∃ e0, f n = Except.error e0) →
      f mr.toNat = Except.error e →
      (retry_with_simple_backoff toStr f mr b u).outcome = .raised e ∧
      (retry_with_simple_backoff toStr f mr b u).calls = (mr + 1).toNat) := by
  constructor
  · have := retryAux_calls_le toStr f mr b u (mr + 1).toNat 0 none 0 []
    simpa [retry_with_simple_backoff] using this
  · intro e hmr hfail hlast
    have h1 : 1 ≤ (mr + 1).toNat := by omega
    have hsum : ((0 : ℕ) : ℤ) + ((mr + 1).toNat : ℤ) = mr + 1 := by omega
    have hidx : 0 + (mr + 1).toNat - 1 = mr.toNat := by omega
    have := retryAux_all_fail toStr f mr b u hfail (mr + 1).toNat 0 none 0 [] e
      h1 hsum (by rw [hidx]; exact hlast)
    exact ⟨this.1, by rw [retry_with_simple_backoff, this.2]; omega⟩

/-- Witness for C2: an operation that always raises, `max_retries = 2`:
three invocations, the last failure re-raised. -/
theorem retry_bounding_and_reraise_witness :
    ((0 : ℤ) ≤ 2) ∧
    (retry_with_simple_backoff (fun e : String => e)
        (fun _ => (Except.error "E" : Except String ℕ)) 2 2 (fun _ => 0)).outcome =
      .raised "E" ∧
    (retry_with_simple_backoff (fun e : String => e)
        (fun _ => (Except.error "E" : Except String ℕ)) 2 2 (fun _ => 0)).calls = 3 :=
  ⟨by norm_num,
    ((retry_bounding_and_reraise (fun e : String => e)
        (fun _ => (Except.error "E" : Except String ℕ)) 2 2 (fun _ => 0)).2 "E"
      (by norm_num) (fun _ => ⟨"E", rfl⟩) rfl).1,
    ((retry_bounding_and_reraise (fun e : String => e)
        (fun _ => (Except.error "E" : Except String ℕ)) 2 2 (fun _ => 0)).2 "E"
      (by norm_num) (fun _ => ⟨"E", rfl⟩) rfl).2⟩

/-- C10: with `max_retries < 0` the loop `for attempt in range(max_retries + 1)`
runs zero iterations: the wrapped operation is never invoked, no sleep is
performed, and the function executes `raise last_exception` with
`last_exception` still `None` (in Python a `TypeError`), modelled by the
`raisedNone` outcome. -/
theorem retry_negative_max_retries {E A : Type} (toStr : E → String)
    (f : ℕ → Except E A) (mr : ℤ) (b : ℚ) (u : ℕ → ℚ) (hneg : mr < 0) :
    retry_with_simple_backoff toStr f mr b u =
      ⟨RetryOutcome.raisedNone, 0, []⟩ := by
  unfold retry_with_simple_backoff
  rw [Int.toNat_of_nonpos (by omega)]
  rfl

/-- Witness for C10 at `max_retries = -1`. -/
theorem retry_negative_max_retries_witness :
    ((-1 : ℤ) < 0) ∧
    retry_with_simple_backoff (fun e : String => e)
        (fun _ => (Except.error "x" : Except String ℕ)) (-1) 2 (fun _ => 0) =
      ⟨RetryOutcome.raisedNone, 0, []⟩ :=
  ⟨by norm_num,
    retry_negative_max_retries (fun e : String => e)
      (fun _ => (Except.error "x" : Except String ℕ)) (-1) 2 (fun _ => 0)
      (by norm_num)⟩

/-- C8: success short-circuit.  An operation that raises on its first
invocation and succeeds on its second, run with `max_retries = 3`, returns
the success value after exactly two invocations and one sleep; the result
of the successful invocation is returned immediately. -/
theorem retry_success_short_circuit {E A : Type} (toStr : E → String)
    (f : ℕ → Except E A) (e : E) (a : A) (b : ℚ) (u : ℕ → ℚ)
    (h0 : f 0 = Except.error e) (h1 : f 1 = Except.ok a) :
    (retry_with_simple_backoff toStr f 3 b u).outcome = .ok a ∧
    (retry_with_simple_backoff toStr f 3 b u).calls = 2 ∧
    (retry_with_simple_backoff toStr f 3 b u).sleeps =
      [attemptDelay (toStr e) 0 b u] := by
  have hrun : retry_with_simple_backoff toStr f 3 b u =
      ⟨.ok a, 2, [attemptDelay (toStr e) 0 b u]⟩ := by
    show retryAux toStr f 3 b u 0 (3 + 1) none 0 [] = _
    rw [retryAux_succ_err_retry toStr f 3 b u 0 3 none 0 [] h0 (by omega)]
    rw [show (3 : ℕ) = 2 + 1 from rfl]
    rw [retryAux_succ_ok toStr f 3 b u (0 + 1) 2 (some e) (0 + 1) _ h1]
    rfl
  rw [hrun]
  exact ⟨rfl, rfl, rfl⟩

/-- Witness for C8 with a concrete fail-once-then-succeed operation. -/
theorem retry_success_short_circuit_witness :
    ((fun n => if n = 0 then Except.error "boom" else Except.ok "ok") 0 =
      (Except.error "boom" : Except String String)) ∧
    (retry_with_simple_backoff (fun e : String => e)
        (fun n => if n = 0 then Except.error "boom" else Except.ok "ok")
        3 2 (fun _ => 0)).outcome = .ok "ok" ∧
    (retry_with_simple_backoff (fun e : String => e)
        (fun n => if n = 0 then Except.error "boom" else Except.ok "ok")
        3 2 (fun _ => 0)).calls = 2 :=
  ⟨rfl,
    (retry_success_short_circuit (fun e : String => e)
      (fun n => if n = 0 then Except.error "boom" else Except.ok "ok")
      "boom" "ok" 2 (fun _ => 0) rfl rfl).1,
    (retry_success_short_circuit (fun e : String => e)
      (fun n => if n = 0 then Except.error "boom" else Except.ok "ok")
      "boom" "ok" 2 (fun _ => 0) rfl rfl).2.1⟩

/-- Every sleep performed by the retry loop is the `attemptDelay` of some
failed attempt. -/
theorem retryAux_sleeps_mem {E A : Type} (toStr : E → String)
    (f : ℕ → Except E A) (mr : ℤ) (b : ℚ) (u : ℕ → ℚ) :
    ∀ (fuel attempt : ℕ) (last : Option E) (calls : ℕ) (sleeps : List ℚ) (d : ℚ),
      d ∈ (retryAux toStr f mr b u attempt fuel last calls sleeps).sleeps →
      d ∈ sleeps ∨ ∃ a e, f a = Except.error e ∧ d = attemptDelay (toStr e) a b u := by
  intro fuel
  induction fuel with
  | zero =>
    intro attempt last calls sleeps d hd
    rw [retryAux_zero] at hd
    exact Or.inl (List.mem_reverse.mp hd)
  | succ n ih =>
    intro attempt last calls sleeps d hd
    cases hf : f attempt with
    | ok a =>
      rw [retryAux_succ_ok toStr f mr b u attempt n last calls sleeps hf] at hd
      exact Or.inl (List.mem_reverse.mp hd)
    | error e =>
      by_cases hm : mr ≤ (attempt : ℤ)
      · rw [retryAux_succ_err_break toStr f mr b u attempt n last calls sleeps hf hm] at hd
        exact Or.inl (List.mem_reverse.mp hd)
      · rw [retryAux_succ_err_retry toStr f mr b u attempt n last calls sleeps hf hm] at hd
        rcases ih (attempt + 1) (some e) (calls + 1) _ d hd with hin | hex
        · rcases List.mem_cons.mp hin with rfl | hin2
          · exact Or.inr ⟨attempt, e, hf, rfl⟩
          · exact Or.inl hin2
        · exact Or.inr hex

/-- C5: 429 delay precedence.  Every sleep of a run is the `attemptDelay`
of a failed attempt; for an error text classified as a rate-limit error
that delay is exactly `extract_retry_delay` of the text (no jitter), and
for any other error it is `base_delay * 2 ^ attempt` plus a jitter inside
`[0, 0.1 * (base_delay * 2 ^ attempt)]`; on the concrete rate-limit text
carrying `retryDelay: 3s` the delay is exactly `3`. -/
theorem retry_429_delay_precedence {E A : Type} (toStr : E → String)
    (f : ℕ → Except E A) (mr : ℤ) (b : ℚ) (u : ℕ → ℚ) :
    (∀ d ∈ (retry_with_simple_backoff toStr f mr b u).sleeps,
      ∃ a e, f a = Except.error e ∧ d = attemptDelay (toStr e) a b u) ∧
    (∀ (ec : String) (a : ℕ), (is_429_error ec).1 = true →
      attemptDelay ec a b u = extract_retry_delay ec) ∧
    (∀ (ec : String) (a : ℕ), (is_429_error ec).1 = false → 0 ≤ b →
      0 ≤ u a → u a ≤ 1 →
      b * 2 ^ a ≤ attemptDelay ec a b u ∧
      attemptDelay ec a b u ≤ b * 2 ^ a + b * 2 ^ a * (1 / 10)) ∧
    (∀ a : ℕ, attemptDelay rateLimitHintText a b u = 3) := by
  refine ⟨?_, ?_, ?_, ?_⟩
  · intro d hd
    rcases retryAux_sleeps_mem toStr f mr b u (mr + 1).toNat 0 none 0 [] d hd with
      hin | hex
    · simp at hin
    · exact hex
  · intro ec a h
    simp only [attemptDelay]
    rw [if_pos h]
  · intro ec a h hb hu0 hu1
    have hnot : ¬ ((is_429_error ec).1 = true) := by simp [h]
    simp only [attemptDelay]
    rw [if_neg hnot]
    have h2a : (0 : ℚ) ≤ b * 2 ^ a := by positivity
    have hj0 : (0 : ℚ) ≤ b * 2 ^ a * (1 / 10) * u a := by positivity
    have hj1 : b * 2 ^ a * (1 / 10) * u a ≤ b * 2 ^ a * (1 / 10) :=
      mul_le_of_le_one_right (by positivity) hu1
    constructor
    · linarith
    · linarith
  · intro a
    simp only [attemptDelay]
    rw [if_pos (by decide)]
    decide

/-- Witness for C5: both computation paths at concrete inputs. -/
theorem retry_429_delay_precedence_witness :
    ((is_429_error rateLimitHintText).1 = true ∧
      attemptDelay rateLimitHintText 0 2 (fun _ => 1 / 2) =
        extract_retry_delay rateLimitHintText) ∧
    ((is_429_error "boom").1 = false ∧
      (2 : ℚ) * 2 ^ 0 ≤ attemptDelay "boom" 0 2 (fun _ => 1 / 2) ∧
      attemptDelay "boom" 0 2 (fun _ => 1 / 2) ≤
        (2 : ℚ) * 2 ^ 0 + (2 : ℚ) * 2 ^ 0 * (1 / 10)) :=
  ⟨⟨by decide,
      (retry_429_delay_precedence (fun e : String => e)
        (fun _ => (Except.error "x" : Except String ℕ)) 3 2 (fun _ => 1 / 2)).2.1
        rateLimitHintText 0 (by decide)⟩,
    ⟨by decide,
      (retry_429_delay_precedence (fun e : String => e)
        (fun _ => (Except.error "x" : Except String ℕ)) 3 2 (fun _ => 1 / 2)).2.2.1
        "boom" 0 (by decide) (by norm_num) (by norm_num) (by norm_num)⟩⟩

/- ---------------------------------------------------------------- -/
/- Lemmas: the three limiter variants in the uncontended regime      -/
/- ---------------------------------------------------------------- -/

theorem pruneHistory_length_le (w now : ℚ) (l : List ℚ) :
    (pruneHistory w now l).length ≤ l.length :=
  (pruneHistory_suffix w now l).sublist.length_le

/-- While the number of calls still fits under the cap, the async variant
admits every call exactly at its arrival instant. -/
theorem runCalls_uncontended (m : ℕ) (w : ℚ) (hw : 0 ≤ w) :
    ∀ (arrivals : List ℚ) (clock : ℚ) (hist : List ℚ),
      hist.Sorted (· ≤ ·) → (∀ x ∈ hist, x ≤ clock) → 0 ≤ clock →
      hist.length + arrivals.length ≤ m →
      (∀ x ∈ arrivals, clock ≤ x) → arrivals.Sorted (· ≤ ·) →
      ∃ recs, runCalls m w 0 arrivals clock hist = some recs ∧
        recs.map Prod.fst = arrivals := by
  intro arrivals
  induction arrivals with
  | nil =>
    intro clock hist _ _ _ _ _ _
    exact ⟨[], rfl, rfl⟩
  | cons a rest ih =>
    intro clock hist hs hub hc0 hlen harr hsorted
    simp only [List.length_cons] at hlen
    have hca : clock ≤ a := harr a (List.mem_cons_self a rest)
    have ha0 : 0 ≤ a := le_trans hc0 hca
    have hstart : (if clock < a then a else clock) = a := by
      by_cases h : clock < a
      · rw [if_pos h]
      · rw [if_neg h]
        exact le_antisymm hca (not_lt.mp h)
    have hfit : (pruneHistory w a hist).length < m :=
      lt_of_le_of_lt (pruneHistory_length_le w a hist) (by omega)
    have hw1 : wait_if_needed m w 0 hist a =
        some (a, pruneHistory w a hist ++ [a]) := by
      unfold wait_if_needed
      rw [show hist.length + 2 = hist.length + 1 + 1 from rfl]
      simp only [waitLoop]
      rw [if_neg (not_lt.mpr ha0), if_pos hfit]
    have hub1 : ∀ x ∈ pruneHistory w a hist, x ≤ a :=
      fun x hx =>
        le_trans (hub x (pruneHistory_subset w a hist x hx)) hca
    have hs1 : (pruneHistory w a hist ++ [a]).Sorted (· ≤ ·) :=
      List.pairwise_append.mpr
        ⟨pruneHistory_sorted w a hist hs, List.sorted_singleton a,
          fun x hx y hy => (List.mem_singleton.mp hy) ▸ hub1 x hx⟩
    have hub2 : ∀ x ∈ pruneHistory w a hist ++ [a], x ≤ a := by
      intro x hx
      rcases List.mem_append.mp hx with hx | hx
      · exact hub1 x hx
      · exact le_of_eq (List.mem_singleton.mp hx)
    have hlen2 : (pruneHistory w a hist ++ [a]).length + rest.length ≤ m := by
      rw [List.length_append, List.length_singleton]
      have := pruneHistory_length_le w a hist
      omega
    have harr2 : ∀ x ∈ rest, a ≤ x := (List.sorted_cons.mp hsorted).1
    rcases ih a (pruneHistory w a hist ++ [a]) hs1 hub2 ha0 hlen2 harr2
      (List.sorted_cons.mp hsorted).2 with ⟨recs2, hrec, hmap⟩
    refine ⟨(a, pruneHistory w a hist ++ [a]) :: recs2, ?_, ?_⟩
    · simp only [runCalls, hstart, hw1, hrec]
    · simp [hmap]

/-- While the number of calls still fits under the cap, the
cursor_prompt_preprocessor thread variant admits every call exactly at its
arrival instant. -/
theorem runCursor_uncontended (m : ℕ) (w : ℚ) :
    ∀ (arrivals : List ℚ) (clock : ℚ) (hist : List ℚ),
      hist.length + arrivals.length ≤ m →
      (∀ x ∈ arrivals, clock ≤ x) → arrivals.Sorted (· ≤ ·) →
      (runCursor m w arrivals clock hist).map Prod.fst = arrivals := by
  intro arrivals
  induction arrivals with
  | nil => intro clock hist _ _ _; rfl
  | cons a rest ih =>
    intro clock hist hlen harr hsorted
    simp only [List.length_cons] at hlen
    have hca : clock ≤ a := harr a (List.mem_cons_self a rest)
    have hstart : (if clock < a then a else clock) = a := by
      by_cases h : clock < a
      · rw [if_pos h]
      · rw [if_neg h]
        exact le_antisymm hca (not_lt.mp h)
    have hfit : hist.length < m := by omega
    have hrest := ih a (hist ++ [a])
      (by rw [List.length_append, List.length_singleton]; omega)
      (List.sorted_cons.mp hsorted).1 (List.sorted_cons.mp hsorted).2
    simp only [runCursor, hstart, cursorWait, if_pos hfit, List.map_cons, hrest]

/-- While the number of calls still fits under the cap, the
multi_agent_loop thread variant admits every call exactly at its arrival
instant. -/
theorem runMulti_uncontended (m : ℕ) (w : ℚ) :
    ∀ (arrivals : List ℚ) (clock : ℚ) (hist : List ℚ),
      hist.length + arrivals.length ≤ m →
      (∀ x ∈ arrivals, clock ≤ x) → arrivals.Sorted (· ≤ ·) →
      (runMulti m w arrivals clock hist).map Prod.fst = arrivals := by
  intro arrivals
  induction arrivals with
  | nil => intro clock hist _ _ _; rfl
  | cons a rest ih =>
    intro clock hist hlen harr hsorted
    simp only [List.length_cons] at hlen
    have hca : clock ≤ a := harr a (List.mem_cons_self a rest)
    have hstart : (if clock < a then a else clock) = a := by
      by_cases h : clock < a
      · rw [if_pos h]
      · rw [if_neg h]
        exact le_antisymm hca (not_lt.mp h)
    have hfit : hist.length < m := by omega
    have hrest := ih a (hist ++ [a])
      (by rw [List.length_append, List.length_singleton]; omega)
      (List.sorted_cons.mp hsorted).1 (List.sorted_cons.mp hsorted).2
    simp only [runMulti, hstart, multiWait, if_pos hfit, List.map_cons, hrest]

/-- C4 counterexample: with `max_calls = 1`, `window = 60` and two
back-to-back call instants, the async variant admits the second call at
`60.01`, the cursor_prompt_preprocessor thread variant at `60.1`, and the
multi_agent_loop thread variant at `60` — the three variants do not admit
the same calls at the same times. -/
theorem variant_equivalence_counterexample :
    runCalls 1 60 0 [0, 0] 0 [] =
      some [((0 : ℚ), [(0 : ℚ)]), (60 + 1 / 100, [60 + 1 / 100])] ∧
    runCursor 1 60 [0, 0] 0 [] =
      [((0 : ℚ), [(0 : ℚ)]), (60 + 1 / 10, [60 + 1 / 10])] ∧
    runMulti 1 60 [0, 0] 0 [] = [((0 : ℚ), [(0 : ℚ)]), (60, [60])] ∧
    ((60 : ℚ) + 1 / 100 ≠ 60 + 1 / 10) ∧ ((60 : ℚ) + 1 / 100 ≠ 60) := by
  refine ⟨by decide, by decide, by decide, by norm_num, by norm_num⟩

/-- C4 amended: the three `wait_if_needed` variants are all sliding-window
admission controllers, and for the same `max_calls`, `window_seconds` and
nondecreasing sequence of call instants they admit the same calls at the
same times whenever the number of calls does not exceed `max_calls`; under
contention, however, they are not functionally equivalent: their admission
times differ by their distinct post-window buffers (0.01 s async, 0.1 s
cursor thread variant, none in the multi_agent_loop variant), and only the
async variant prunes all expired entries and honors the explicit
next-allowed-call hold. -/
theorem variant_equivalence_uncontended (m : ℕ) (w : ℚ) (arrivals : List ℚ)
    (hw : 0 ≤ w) (hlen : arrivals.length ≤ m)
    (hsort : arrivals.Sorted (· ≤ ·)) (hpos : ∀ x ∈ arrivals, 0 ≤ x) :
    (∃ recs, runCalls m w 0 arrivals 0 [] = some recs ∧
      recs.map Prod.fst = arrivals) ∧
    (runCursor m w arrivals 0 []).map Prod.fst = arrivals ∧
    (runMulti m w arrivals 0 []).map Prod.fst = arrivals :=
  ⟨runCalls_uncontended m w hw arrivals 0 [] List.sorted_nil
      (by intro x hx; simp at hx) le_rfl (by simpa using hlen) hpos hsort,
    runCursor_uncontended m w arrivals 0 [] (by simpa using hlen) hpos hsort,
    runMulti_uncontended m w arrivals 0 [] (by simpa using hlen) hpos hsort⟩

/-- Witness for C4 (amended): three spaced calls under a cap of three are
admitted identically by all variants. -/
theorem variant_equivalence_uncontended_witness :
    ((0 : ℚ) ≤ 60) ∧
    (∃ recs, runCalls 3 60 0 [0, 1, 2] 0 [] = some recs ∧
      recs.map Prod.fst = [0, 1, 2]) ∧
    (runCursor 3 60 [0, 1, 2] 0 []).map Prod.fst = [0, 1, 2] ∧
    (runMulti 3 60 [0, 1, 2] 0 []).map Prod.fst = [0, 1, 2] :=
  ⟨by norm_num,
    variant_equivalence_uncontended 3 60 [0, 1, 2] (by norm_num) (by decide)
      (by decide) (by decide)⟩
